import Mathlib

/-!
Shallow embedding of `saymyscope.py`: a scope-filtering tool that removes
out-of-scope hostnames / URLs from an input set.

Python sets are modelled as Lean lists carrying the (unspecified but fixed)
iteration order of the run; `dict` (insertion ordered) is modelled as an
association list.  Machine strings are Lean `String`s, manipulated through
their underlying `List Char` so that everything evaluates by `rfl`/`decide`.
-/

namespace SayMyScope

/-! ### `fnmatch` glob matching (as used by `matches_wildcard`)

`fnmatch.fnmatch(name, pat)` on POSIX compares `name` against `pat` with
shell-glob semantics: `*` matches any run of characters, `?` one character,
`[...]` a character class (leading `!` negates, `a-b` is a range, an
unterminated `[` is a literal `[`).  `os.path.normcase` is the identity on
POSIX, so matching is case sensitive. -/

/-- Split a character list at the first `]`, returning the part before and
the part after it (none when no `]` occurs). -/
def scanClose : List Char → Option (List Char × List Char)
  | [] => none
  | ']' :: rest => some ([], rest)
  | c :: rest => (scanClose rest).map (fun pr => (c :: pr.1, pr.2))

/-- Following CPython's `fnmatch.translate` scan for `[`: an initial `!` is
part of the class body, as is a `]` that immediately follows it; the class
ends at the next `]`.  Returns the class body and the remaining pattern. -/
def splitClass (ps : List Char) : Option (List Char × List Char) :=
  match ps with
  | '!' :: ']' :: rest => (scanClose rest).map (fun pr => ('!' :: ']' :: pr.1, pr.2))
  | '!' :: rest => (scanClose rest).map (fun pr => ('!' :: pr.1, pr.2))
  | ']' :: rest => (scanClose rest).map (fun pr => (']' :: pr.1, pr.2))
  | rest => (scanClose rest).map (fun pr => (pr.1, pr.2))

/-- Match one character against a (non-negated) class body: `a-b` between two
characters is a codepoint range, anything else is a literal. -/
def classMatch (c : Char) : List Char → Bool
  | [] => false
  | [a] => c == a
  | [a, '-'] => c == a || c == '-'
  | a :: '-' :: b :: rest => (a ≤ c && c ≤ b) || classMatch c rest
  | a :: rest => c == a || classMatch c rest

/-- Match one character against a class body, honouring a leading `!`. -/
def classTest (c : Char) (content : List Char) : Bool :=
  match content with
  | '!' :: cc => !(classMatch c cc)
  | _ => classMatch c content

/-- Glob matching of a string (third argument) against a pattern (second
argument), shell-glob semantics as produced by `fnmatch.translate`.  Every
recursive call shrinks `pattern.length + string.length`, so the first
argument is a fuel bound on the recursion depth (structural recursion keeps
the function kernel-reducible); the zero-fuel arm is never reached when the
fuel exceeds that sum. -/
def globMatch : Nat → List Char → List Char → Bool
  | 0, _, _ => false
  | _ + 1, [], [] => true
  | _ + 1, [], _ :: _ => false
  | fuel + 1, '*' :: ps, [] => globMatch fuel ps []
  | fuel + 1, '*' :: ps, c :: cs =>
    globMatch fuel ps (c :: cs) || globMatch fuel ('*' :: ps) cs
  | fuel + 1, '?' :: ps, _ :: cs => globMatch fuel ps cs
  | fuel + 1, '[' :: ps, s =>
    match splitClass ps with
    | none =>
      match s with
      | '[' :: cs => globMatch fuel ps cs
      | _ => false
    | some (content, rest) =>
      match s with
      | [] => false
      | c :: cs => classTest c content && globMatch fuel rest cs
  | fuel + 1, p :: ps, c :: cs => p == c && globMatch fuel ps cs
  | _ + 1, _ :: _, [] => false

/-- `fnmatch.fnmatch(item, pattern)` on a POSIX platform. -/
def fnmatch (item pattern : String) : Bool :=
  globMatch (pattern.data.length + item.data.length + 1) pattern.data item.data

/-- `matches_wildcard`: first pattern (in iteration order) that glob-matches
the item, or none. -/
def matches_wildcard (item : String) : List String → Option String
  | [] => none
  | pattern :: rest =>
    if fnmatch item pattern then some pattern else matches_wildcard item rest

/-! ### Subdomain mode (`filter_subdomains`) -/

/-- Membership of `*` in a string, i.e. Python's `'*' in domain`. -/
def hasStar (s : String) : Bool := s.data.contains '*'

/-- The decision taken by the body of `filter_subdomains`' loop for one
subdomain: `some (subdomain, reason, matched_pattern)` when it is removed,
`none` when it is kept. -/
def subFate (exact_matches wildcard_patterns : List String) (subdomain : String) :
    Option (String × String × String) :=
  if subdomain ∈ exact_matches then some (subdomain, "exact match", subdomain)
  else
    match matches_wildcard subdomain wildcard_patterns with
    | some p => some (subdomain, "wildcard match", p)
    | none => none

/-- The loop of `filter_subdomains`, accumulating the in-scope set and the
removal records in iteration order. -/
def subGo (exact_matches wildcard_patterns : List String) :
    List String → List String × List (String × String × String)
  | [] => ([], [])
  | s :: rest =>
    let acc := subGo exact_matches wildcard_patterns rest
    match subFate exact_matches wildcard_patterns s with
    | some r => (acc.1, r :: acc.2)
    | none => (s :: acc.1, acc.2)

/-- `filter_subdomains(subdomains, out_of_scope)`: split the out-of-scope set
into exact entries (no `*`) and wildcard patterns (containing `*`), then keep
or remove each subdomain. -/
def filter_subdomains (subdomains out_of_scope : List String) :
    List String × List (String × String × String) :=
  let exact_matches := out_of_scope.filter (fun d => !(hasStar d))
  let wildcard_patterns := out_of_scope.filter (fun d => hasStar d)
  subGo exact_matches wildcard_patterns subdomains

/-! ### `urllib.parse.urlparse(url).hostname`

CPython's `urlsplit`: tab/CR/LF characters are removed from the URL; a scheme
is split off when the first `:` is preceded by a non-empty run of scheme
characters starting with a letter; a netloc is present only when the rest
starts with `//` and extends to the first `/`, `?` or `#`; a netloc with a
`[` but no `]` (or vice versa) raises `ValueError("Invalid IPv6 URL")`.  The
`hostname` accessor takes the part of the netloc after the last `@`, inside
`[...]` when a `[` is present and before the first `:` otherwise, lower-cases
it (preserving a `%`-separated zone suffix) and yields `None` when empty. -/

/-- Characters CPython strips out of a URL before splitting it. -/
def removeUnsafeChars (s : List Char) : List Char :=
  s.filter (fun c => c ≠ '\t' && c ≠ '\r' && c ≠ '\n')

/-- Characters allowed in a URL scheme. -/
def isSchemeChar (c : Char) : Bool := c.isAlpha || c.isDigit || c == '+' || c == '-' || c == '.'

/-- Split a character list at the first `:` (part before, part after). -/
def splitOnColon : List Char → Option (List Char × List Char)
  | [] => none
  | ':' :: rest => some ([], rest)
  | c :: rest => (splitOnColon rest).map (fun pr => (c :: pr.1, pr.2))

/-- Drop a leading `scheme:` when the text before the first `:` is a
non-empty run of scheme characters starting with a letter. -/
def stripScheme (url : List Char) : List Char :=
  match splitOnColon url with
  | none => url
  | some (pre, post) =>
    match pre with
    | [] => url
    | c0 :: _ => if c0.isAlpha && pre.all isSchemeChar then post else url

/-- The netloc extends from after `//` to the first `/`, `?` or `#`. -/
def getNetloc : List Char → List Char
  | '/' :: '/' :: rest => rest.takeWhile (fun c => c ≠ '/' && c ≠ '?' && c ≠ '#')
  | _ => []

/-- Part of the netloc after the last `@` (the whole netloc when none). -/
def afterLastAt (l : List Char) : List Char :=
  ((l.reverse.takeWhile (fun c => c ≠ '@'))).reverse

/-- CPython's `Char.lower` restricted to ASCII (all strings in the claims are
ASCII). -/
def pyLowerChar (c : Char) : Char := c.toLower

/-- Python `str.lower()` (ASCII model). -/
def pyLower (s : String) : String := ⟨s.data.map pyLowerChar⟩

/-- The `hostname` accessor applied to a netloc: `none` models Python's
`None`. -/
def hostnameOfNetloc (netloc : List Char) : Option String :=
  let hostinfo := afterLastAt netloc
  let hostname :=
    if hostinfo.contains '[' then
      (((hostinfo.dropWhile (fun c => c ≠ '[')).drop 1).takeWhile (fun c => c ≠ ']'))
    else hostinfo.takeWhile (fun c => c ≠ ':')
  if hostname.isEmpty then none
  else
    let host := hostname.takeWhile (fun c => c ≠ '%')
    match hostname.drop host.length with
    | [] => some ⟨host.map pyLowerChar⟩
    | _ :: scope =>
      if scope.isEmpty then some ⟨host.map pyLowerChar⟩
      else some ⟨host.map pyLowerChar ++ '%' :: scope⟩

/-- `urlparse(url).hostname`, with the `ValueError` raised on a bracket
mismatch in the netloc modelled as `Except.error`. -/
def pyHostname (url : String) : Except String (Option String) :=
  let u := stripScheme (removeUnsafeChars url.data)
  let netloc := getNetloc u
  if (netloc.contains '[' && !netloc.contains ']') ||
      (netloc.contains ']' && !netloc.contains '[') then
    Except.error "Invalid IPv6 URL"
  else Except.ok (hostnameOfNetloc netloc)

/-! ### URL mode (`filter_urls`) -/

/-- Python `pattern.startswith(('http://', 'https://'))`. -/
def strStarts : List Char → List Char → Bool
  | [], _ => true
  | _ :: _, [] => false
  | p :: ps, c :: cs => p == c && strStarts ps cs

/-- Whether an out-of-scope entry is a URL pattern (case-sensitive scheme
check). -/
def urlScheme (pattern : String) : Bool :=
  strStarts "http://".data pattern.data || strStarts "https://".data pattern.data

/-- The four pattern buckets built by `filter_urls` from the out-of-scope
set; each keeps the iteration order of the out-of-scope set and stores
entries exactly as written (no normalisation). -/
structure Buckets where
  domain_exact : List String
  domain_wildcards : List String
  url_exact : List String
  url_wildcards : List String
deriving DecidableEq

/-- The classification loop at the top of `filter_urls`. -/
def classify (out_of_scope : List String) : Buckets :=
  { domain_exact := out_of_scope.filter (fun p => !(urlScheme p) && !(hasStar p))
    domain_wildcards := out_of_scope.filter (fun p => !(urlScheme p) && hasStar p)
    url_exact := out_of_scope.filter (fun p => urlScheme p && !(hasStar p))
    url_wildcards := out_of_scope.filter (fun p => urlScheme p && hasStar p) }

/-- What the body of `filter_urls`' loop does with one URL. -/
inductive UrlFate where
  | dropped : UrlFate
  | kept : UrlFate
  | removed (domain reason pattern : String) : UrlFate
deriving DecidableEq

/-- The decision chain of `filter_urls` for one URL: hostname extraction,
then exact-URL, wildcard-URL, exact-domain, wildcard-domain checks in this
order; `pyLower url` is the loop's local `full_url = url.lower()`. -/
def urlFate (B : Buckets) (url : String) : Except String UrlFate :=
  match pyHostname url with
  | Except.error e => Except.error e
  | Except.ok none => Except.ok UrlFate.dropped
  | Except.ok (some domain) =>
    if pyLower url ∈ B.url_exact then
      Except.ok (UrlFate.removed domain "exact URL match" (pyLower url))
    else
      match matches_wildcard (pyLower url) B.url_wildcards with
      | some p => Except.ok (UrlFate.removed domain "wildcard URL match" p)
      | none =>
        if domain ∈ B.domain_exact then
          Except.ok (UrlFate.removed domain "exact domain match" domain)
        else
          match matches_wildcard domain B.domain_wildcards with
          | some p => Except.ok (UrlFate.removed domain "wildcard domain match" p)
          | none => Except.ok UrlFate.kept

/-- `removed_domain_info` is a Python dict keyed by hostname; modelled as an
insertion-ordered association list `(domain, count, reason, pattern)`. -/
def RemMap : Type := List (String × Nat × String × String)

/-- One removal hitting the dict: a present key only gets its count bumped
(reason and pattern untouched); an absent key is appended with count 1. -/
def bump : List (String × Nat × String × String) → String → String → String →
    List (String × Nat × String × String)
  | [], d, r, p => [(d, 1, r, p)]
  | e :: rest, d, r, p =>
    if e.1 = d then (e.1, e.2.1 + 1, e.2.2.1, e.2.2.2) :: rest
    else e :: bump rest d r p

/-- The main loop of `filter_urls`, threading the in-scope list (iteration
order) and the removal dict. -/
def urlsGo (B : Buckets) :
    List String → List String × List (String × Nat × String × String) →
      Except String (List String × List (String × Nat × String × String))
  | [], st => Except.ok st
  | url :: rest, st =>
    match urlFate B url with
    | Except.error e => Except.error e
    | Except.ok UrlFate.dropped => urlsGo B rest st
    | Except.ok UrlFate.kept => urlsGo B rest (st.1 ++ [url], st.2)
    | Except.ok (UrlFate.removed d r p) => urlsGo B rest (st.1, bump st.2 d r p)

/-- `filter_urls(urls, out_of_scope)`: classify the out-of-scope entries,
then run the per-URL decision chain over the input in iteration order.  An
uncaught `ValueError` from `urlparse` surfaces as `Except.error`. -/
def filter_urls (urls out_of_scope : List String) :
    Except String (List String × List (String × Nat × String × String)) :=
  urlsGo (classify out_of_scope) urls ([], [])

deriving instance DecidableEq for Except

/-- Dictionary lookup in the removal mapping (Python `removed_domain_info[domain]`). -/
def lookupRem (d : String) : List (String × Nat × String × String) → Option (Nat × String × String)
  | [] => none
  | e :: rest => if e.1 = d then some e.2 else lookupRem d rest

/-- The URLs of a run that the loop keeps, in iteration order. -/
def keptOf (B : Buckets) (urls : List String) : List String :=
  urls.filter (fun u => decide (urlFate B u = Except.ok UrlFate.kept))

/-- The removal events `(hostname, reason, matched_pattern)` triggered by a
run, in iteration order. -/
def eventsOf (B : Buckets) (urls : List String) : List (String × String × String) :=
  urls.filterMap (fun u =>
    match urlFate B u with
    | Except.ok (UrlFate.removed d r p) => some (d, r, p)
    | _ => none)

/-- Replaying a sequence of removal events into the removal dict. -/
def bumpFold (evs : List (String × String × String))
    (m : List (String × Nat × String × String)) : List (String × Nat × String × String) :=
  evs.foldl (fun m e => bump m e.1 e.2.1 e.2.2) m

/-- Total number of removed URLs: the sum of the per-hostname counters, as
computed by `main`'s `sum(info[0] for info in removed_info.values())`. -/
def remTotal (m : List (String × Nat × String × String)) : Nat :=
  (m.map (fun e => e.2.1)).sum

/-! ### Writer (`save_to_file`) and loader (`load_file`)

Python compares strings with `<` by code points; `sorted` is modelled by
insertion sort over that order.  `load_file` reads lines into a set: order
is an unspecified iteration order, so it is modelled as any duplicate-free
list with the right membership (`List.dedup` of the trimmed non-empty
lines). -/

/-- Code-point lexicographic `<=` on character lists (Python string order). -/
def charListLe : List Char → List Char → Bool
  | [], _ => true
  | _ :: _, [] => false
  | a :: as, b :: bs =>
    if a.toNat < b.toNat then true
    else if b.toNat < a.toNat then false
    else charListLe as bs

/-- Python `a <= b` on strings. -/
def strLe (a b : String) : Bool := charListLe a.data b.data

/-- One insertion step of insertion sort over `strLe`. -/
def insertStr (s : String) : List String → List String
  | [] => [s]
  | t :: rest => if strLe s t then s :: t :: rest else t :: insertStr s rest

/-- Ascending sort over `strLe`, modelling Python's `sorted`. -/
def sortStrings : List String → List String
  | [] => []
  | s :: rest => insertStr s (sortStrings rest)

/-- `save_to_file(items, ...)`: the text written to the output file, one
sorted item per line, each line ending in a newline. -/
def save_to_file (items : List String) : String :=
  String.join ((sortStrings items).map (fun item => item ++ "\n"))

/-- Python `str.strip()` whitespace (ASCII model). -/
def pyStripChar (c : Char) : Bool :=
  c == ' ' || c == '\t' || c == '\n' || c == '\r' || c == '\x0b' || c == '\x0c'

/-- Python `line.strip()`. -/
def pyStrip (s : String) : String :=
  ⟨((s.data.dropWhile pyStripChar).reverse.dropWhile pyStripChar).reverse⟩

/-- `load_file`: strip each line, drop empties, collapse duplicates into a
set (modelled as a deduplicated list; its order stands for the set's
unspecified iteration order). -/
def load_file (lines : List String) : List String :=
  ((lines.map pyStrip).filter (fun s => decide (s ≠ ""))).dedup

/-! ### Helper lemmas: subdomain mode -/

theorem subGo_eq (E W : List String) (L : List String) :
    subGo E W L =
      (L.filter (fun s => (subFate E W s).isNone), L.filterMap (subFate E W)) := by
  induction L with
  | nil => rfl
  | cons s rest ih =>
    simp only [subGo, ih]
    cases h : subFate E W s <;>
      simp [List.filter_cons, List.filterMap_cons, h]

theorem subFate_fst {E W : List String} {s : String} {r : String × String × String}
    (h : subFate E W s = some r) : r.1 = s := by
  unfold subFate at h
  split at h
  · cases h; rfl
  · split at h
    · cases h; rfl
    · cases h

theorem map_fst_filterMap_subFate (E W : List String) (L : List String) :
    (L.filterMap (subFate E W)).map (fun r => r.1) =
      L.filter (fun s => (subFate E W s).isSome) := by
  induction L with
  | nil => rfl
  | cons s rest ih =>
    simp only [List.filterMap_cons, List.filter_cons]
    cases h : subFate E W s with
    | none => simpa [h] using ih
    | some r =>
      have := subFate_fst h
      simp [h, this, ih]

theorem subFate_exact {E W : List String} {s : String} (hE : s ∈ E) :
    subFate E W s = some (s, "exact match", s) := by
  unfold subFate
  rw [if_pos hE]

theorem filter_subdomains_eq (S O : List String) :
    filter_subdomains S O =
      (S.filter
          (fun s =>
            (subFate (O.filter (fun d => !(hasStar d))) (O.filter (fun d => hasStar d)) s).isNone),
        S.filterMap
          (subFate (O.filter (fun d => !(hasStar d))) (O.filter (fun d => hasStar d)))) := by
  unfold filter_subdomains
  exact subGo_eq _ _ _

/-! ### Claims about subdomain mode -/

/-- Claim C1: in subdomain mode, for every input set `S` (a duplicate-free
iteration order) and out-of-scope set `O`, the in-scope set together with the
subdomains of the removal records is exactly `S`, the two are disjoint, and
the removal list carries exactly one record per removed subdomain. -/
theorem C1_subdomain_partition (S O : List String) (hS : S.Nodup)
    (ins : List String) (rem : List (String × String × String))
    (h : filter_subdomains S O = (ins, rem)) :
    (∀ s, s ∈ S ↔ (s ∈ ins ∨ s ∈ rem.map (fun r => r.1))) ∧
    (∀ s, ¬(s ∈ ins ∧ s ∈ rem.map (fun r => r.1))) ∧
    (rem.map (fun r => r.1)).Nodup := by
  rw [filter_subdomains_eq] at h
  injection h with hins hrem
  subst hins
  subst hrem
  rw [map_fst_filterMap_subFate]
  refine ⟨fun s => ?_, fun s => ?_, List.Nodup.filter _ hS⟩
  · constructor
    · intro hs
      cases hfate : subFate (O.filter (fun d => !(hasStar d))) (O.filter (fun d => hasStar d)) s with
      | none => exact Or.inl (List.mem_filter.mpr ⟨hs, by simp [hfate]⟩)
      | some r => exact Or.inr (List.mem_filter.mpr ⟨hs, by simp [hfate]⟩)
    · intro hs
      cases hs with
      | inl hs => exact (List.mem_filter.mp hs).1
      | inr hs => exact (List.mem_filter.mp hs).1
  · rintro ⟨h1, h2⟩
    have e1 := (List.mem_filter.mp h1).2
    have e2 := (List.mem_filter.mp h2).2
    cases hfate : subFate (O.filter (fun d => !(hasStar d))) (O.filter (fun d => hasStar d)) s <;>
      simp [hfate] at e1 e2

/-- Claim C2 counterexample: the item `*` is exactly equal (as a string) to
the out-of-scope entry `*`, yet it is removed with reason `wildcard match`,
not `exact match`, because an entry containing `*` never enters the
exact-match bucket. -/
theorem C2_counterexample :
    filter_subdomains ["*"] ["*"] = ([], [("*", "wildcard match", "*")]) ∧
    ("*", "exact match", "*") ∉ (filter_subdomains ["*"] ["*"]).2 := by
  constructor
  · decide
  · decide

/-- Claim C2 (amended): an item exactly equal to an out-of-scope entry that
contains no `*` is always removed with reason `exact match`, regardless of
whether it would also satisfy some wildcard pattern. -/
theorem C2_exact_beats_wildcard (S O : List String) (s : String)
    (hs : s ∈ S) (ho : s ∈ O) (hstar : hasStar s = false)
    (ins : List String) (rem : List (String × String × String))
    (h : filter_subdomains S O = (ins, rem)) :
    (s, "exact match", s) ∈ rem ∧ s ∉ ins := by
  rw [filter_subdomains_eq] at h
  injection h with hins hrem
  subst hins
  subst hrem
  have hE : s ∈ O.filter (fun d => !(hasStar d)) :=
    List.mem_filter.mpr ⟨ho, by simp [hstar]⟩
  have hfate := subFate_exact (W := O.filter (fun d => hasStar d)) hE
  constructor
  · exact List.mem_filterMap.mpr ⟨s, hs, hfate⟩
  · intro hmem
    have := (List.mem_filter.mp hmem).2
    simp [hfate] at this

/-- Claim C2 witness: `api.example.com` appears verbatim in the out-of-scope
set and also glob-matches `*.example.com`; it is removed as an exact match. -/
theorem C2_witness :
    ("api.example.com", "exact match", "api.example.com") ∈
        (filter_subdomains ["api.example.com"] ["api.example.com", "*.example.com"]).2 ∧
    "api.example.com" ∉
        (filter_subdomains ["api.example.com"] ["api.example.com", "*.example.com"]).1 := by
  have h := C2_exact_beats_wildcard ["api.example.com"]
    ["api.example.com", "*.example.com"] "api.example.com"
    (by decide) (by decide) (by decide)
    (filter_subdomains ["api.example.com"] ["api.example.com", "*.example.com"]).1
    (filter_subdomains ["api.example.com"] ["api.example.com", "*.example.com"]).2
    rfl
  exact h

/-- Claim C6: with out-of-scope set `{*.example.com}` in subdomain mode,
`api.example.com` is removed (one wildcard-match record) while `example.com`
and `notexample.com` stay in scope. -/
theorem C6_wildcard_semantics :
    filter_subdomains ["api.example.com", "example.com", "notexample.com"] ["*.example.com"] =
      (["example.com", "notexample.com"],
        [("api.example.com", "wildcard match", "*.example.com")]) := by decide

/-! ### Helper lemmas: URL mode -/

theorem urlsGo_fatesOk {B : Buckets} {urls : List String} :
    ∀ {st res}, urlsGo B urls st = Except.ok res →
      ∀ u ∈ urls, ∃ f, urlFate B u = Except.ok f := by
  induction urls with
  | nil => intro st res h u hu; simp at hu
  | cons v rest ih =>
    intro st res h u hu
    unfold urlsGo at h
    cases hf : urlFate B v with
    | error e => rw [hf] at h; cases h
    | ok f =>
      rw [hf] at h
      rcases List.mem_cons.mp hu with rfl | hu'
      · exact ⟨f, hf⟩
      · cases f with
        | dropped => exact ih h u hu'
        | kept => exact ih h u hu'
        | removed d r p => exact ih h u hu'

theorem urlsGo_eq {B : Buckets} (urls : List String)
    (h : ∀ u ∈ urls, ∃ f, urlFate B u = Except.ok f) :
    ∀ st, urlsGo B urls st =
      Except.ok (st.1 ++ keptOf B urls, bumpFold (eventsOf B urls) st.2) := by
  induction urls with
  | nil => intro st; simp [urlsGo, keptOf, eventsOf, bumpFold]
  | cons v rest ih =>
    intro st
    obtain ⟨f, hf⟩ := h v (by simp)
    have hrest : ∀ u ∈ rest, ∃ f, urlFate B u = Except.ok f :=
      fun u hu => h u (by simp [hu])
    unfold urlsGo
    rw [hf]
    cases f with
    | dropped =>
      rw [ih hrest st]
      simp [keptOf, eventsOf, List.filter_cons, List.filterMap_cons, hf]
    | kept =>
      rw [ih hrest (st.1 ++ [v], st.2)]
      simp [keptOf, eventsOf, List.filter_cons, List.filterMap_cons, hf]
    | removed d r p =>
      show urlsGo B rest (st.1, bump st.2 d r p) = _
      rw [ih hrest (st.1, bump st.2 d r p)]
      simp [keptOf, eventsOf, bumpFold, List.filter_cons, List.filterMap_cons, hf]

theorem filter_urls_eq {urls O : List String} {ins : List String}
    {rem : List (String × Nat × String × String)}
    (h : filter_urls urls O = Except.ok (ins, rem)) :
    ins = keptOf (classify O) urls ∧ rem = bumpFold (eventsOf (classify O) urls) [] := by
  unfold filter_urls at h
  have hfates := urlsGo_fatesOk h
  rw [urlsGo_eq urls hfates ([], [])] at h
  injection h with h'
  injection h' with h1 h2
  exact ⟨h1.symm, h2.symm⟩

theorem urlFate_some {B : Buckets} {url domain : String}
    (hd : pyHostname url = Except.ok (some domain)) :
    urlFate B url =
      if pyLower url ∈ B.url_exact then
        Except.ok (UrlFate.removed domain "exact URL match" (pyLower url))
      else
        match matches_wildcard (pyLower url) B.url_wildcards with
        | some p => Except.ok (UrlFate.removed domain "wildcard URL match" p)
        | none =>
          if domain ∈ B.domain_exact then
            Except.ok (UrlFate.removed domain "exact domain match" domain)
          else
            match matches_wildcard domain B.domain_wildcards with
            | some p => Except.ok (UrlFate.removed domain "wildcard domain match" p)
            | none => Except.ok UrlFate.kept := by
  unfold urlFate
  rw [hd]

theorem lookupRem_bump_self (m : List (String × Nat × String × String)) (d r p : String) :
    lookupRem d (bump m d r p) =
      match lookupRem d m with
      | none => some (1, r, p)
      | some (c, r0, p0) => some (c + 1, r0, p0) := by
  induction m with
  | nil => simp [bump, lookupRem]
  | cons e rest ih =>
    obtain ⟨ed, ec, er, ep⟩ := e
    by_cases he : ed = d
    · subst he
      simp [bump, lookupRem]
    · simp [bump, lookupRem, he, ih]

theorem lookupRem_bump_other (m : List (String × Nat × String × String))
    {d d' : String} (r p : String) (hne : d' ≠ d) :
    lookupRem d' (bump m d r p) = lookupRem d' m := by
  have hne' : d ≠ d' := Ne.symm hne
  induction m with
  | nil => simp [bump, lookupRem, hne']
  | cons e rest ih =>
    obtain ⟨ed, ec, er, ep⟩ := e
    by_cases he : ed = d
    · subst he
      simp [bump, lookupRem, hne']
    · simp [bump, lookupRem, he, ih]

theorem lookupRem_bumpFold_some (d : String) (evs : List (String × String × String)) :
    ∀ m c r0 p0, lookupRem d m = some (c, r0, p0) →
      lookupRem d (bumpFold evs m) =
        some (c + (evs.filter (fun e => decide (e.1 = d))).length, r0, p0) := by
  induction evs with
  | nil => intro m c r0 p0 hm; simpa [bumpFold] using hm
  | cons e rest ih =>
    intro m c r0 p0 hm
    obtain ⟨ed, er, ep⟩ := e
    by_cases he : ed = d
    · subst he
      have hb : lookupRem ed (bump m ed er ep) = some (c + 1, r0, p0) := by
        rw [lookupRem_bump_self, hm]
      have := ih (bump m ed er ep) (c + 1) r0 p0 hb
      simp only [bumpFold, List.foldl_cons] at this ⊢
      rw [this]
      simp [List.filter_cons]
      omega
    · have hb : lookupRem d (bump m ed er ep) = some (c, r0, p0) := by
        rw [lookupRem_bump_other _ _ _ (fun h => he h.symm), hm]
      have := ih (bump m ed er ep) c r0 p0 hb
      simp only [bumpFold, List.foldl_cons] at this ⊢
      rw [this]
      simp [List.filter_cons, he]

theorem lookupRem_bumpFold_none (d : String) (evs : List (String × String × String)) :
    ∀ m, lookupRem d m = none →
      lookupRem d (bumpFold evs m) =
        match evs.filter (fun e => decide (e.1 = d)) with
        | [] => none
        | (_, r, p) :: tail => some (tail.length + 1, r, p) := by
  induction evs with
  | nil => intro m hm; simpa [bumpFold] using hm
  | cons e rest ih =>
    intro m hm
    obtain ⟨ed, er, ep⟩ := e
    by_cases he : ed = d
    · subst he
      have hb : lookupRem ed (bump m ed er ep) = some (1, er, ep) := by
        rw [lookupRem_bump_self, hm]
      have := lookupRem_bumpFold_some ed rest (bump m ed er ep) 1 er ep hb
      simp only [bumpFold, List.foldl_cons] at this ⊢
      rw [this]
      simp [List.filter_cons]
      omega
    · have hb : lookupRem d (bump m ed er ep) = none := by
        rw [lookupRem_bump_other _ _ _ (fun h => he h.symm), hm]
      have := ih (bump m ed er ep) hb
      simp only [bumpFold, List.foldl_cons] at this ⊢
      rw [this]
      simp [List.filter_cons, he]

theorem remTotal_bump (m : List (String × Nat × String × String)) (d r p : String) :
    remTotal (bump m d r p) = remTotal m + 1 := by
  induction m with
  | nil => simp [bump, remTotal]
  | cons e rest ih =>
    obtain ⟨ed, ec, er, ep⟩ := e
    by_cases he : ed = d
    · subst he
      simp [bump, remTotal]
      omega
    · simp [bump, remTotal, he] at ih ⊢
      omega

theorem remTotal_bumpFold (evs : List (String × String × String)) :
    ∀ m, remTotal (bumpFold evs m) = remTotal m + evs.length := by
  induction evs with
  | nil => intro m; simp [bumpFold]
  | cons e rest ih =>
    intro m
    simp only [bumpFold, List.foldl_cons] at ih ⊢
    rw [ih (bump m e.1 e.2.1 e.2.2), remTotal_bump]
    simp [List.length_cons]
    omega

/-! ### Claims about URL mode -/

/-- Claim C1 witness at a concrete input. -/
theorem C1_witness :
    ("b.com" ∈ (filter_subdomains ["a.com", "b.com"] ["a.com"]).1 ∨
      "b.com" ∈ ((filter_subdomains ["a.com", "b.com"] ["a.com"]).2.map (fun r => r.1))) ∧
    ¬("a.com" ∈ (filter_subdomains ["a.com", "b.com"] ["a.com"]).1 ∧
      "a.com" ∈ ((filter_subdomains ["a.com", "b.com"] ["a.com"]).2.map (fun r => r.1))) := by
  have h := C1_subdomain_partition ["a.com", "b.com"] ["a.com"] (by decide) _ _ rfl
  exact ⟨(h.1 "b.com").mp (by decide), h.2.1 "a.com"⟩

/-- Claim C3 counterexample: with out-of-scope entries `a.com` (domain exact)
and `http://a.com/x*` (URL wildcard) and iteration order
`https://a.com/1, http://a.com/x1`, the second URL glob-matches the full-URL
wildcard and its hostname matches the domain pattern, yet the removal
recorded for its hostname `a.com` carries the domain-level reason fixed by
the first URL. -/
theorem C3_counterexample :
    filter_urls ["https://a.com/1", "http://a.com/x1"] ["a.com", "http://a.com/x*"] =
      Except.ok ([], [("a.com", 2, "exact domain match", "a.com")]) ∧
    fnmatch (pyLower "http://a.com/x1") "http://a.com/x*" = true ∧
    "a.com" ∈ (classify ["a.com", "http://a.com/x*"]).domain_exact := by
  refine ⟨by decide, by decide, by decide⟩

/-- Claim C3 (amended): full-URL checks take precedence within the
processing of each URL: a URL whose lower-casing is a url-exact entry or
glob-matches a url-wildcard pattern triggers a URL-level removal step for
that URL (reason `exact URL match` or `wildcard URL match`), whatever its
hostname would match; the stored record for the hostname carries that
URL-level reason only when this URL is the first one removed under its
hostname (first-match-wins aggregation, claim C4). -/
theorem C3_url_precedence (B : Buckets) (url domain : String)
    (hd : pyHostname url = Except.ok (some domain))
    (hu : pyLower url ∈ B.url_exact ∨
      (matches_wildcard (pyLower url) B.url_wildcards).isSome = true)
    (_hdm : domain ∈ B.domain_exact ∨
      (matches_wildcard domain B.domain_wildcards).isSome = true) :
    ∃ p, (urlFate B url = Except.ok (UrlFate.removed domain "exact URL match" p) ∨
      urlFate B url = Except.ok (UrlFate.removed domain "wildcard URL match" p)) := by
  unfold urlFate
  rw [hd]
  by_cases hex : pyLower url ∈ B.url_exact
  · exact ⟨pyLower url, Or.inl (by simp [hex])⟩
  · have hw : (matches_wildcard (pyLower url) B.url_wildcards).isSome = true := by
      rcases hu with h | h
      · exact absurd h hex
      · exact h
    obtain ⟨p, hp⟩ := Option.isSome_iff_exists.mp hw
    exact ⟨p, Or.inr (by simp [hex, hp])⟩

/-- Claim C3 witness at a concrete input. -/
theorem C3_witness :
    ∃ p, (urlFate (classify ["a.com", "http://a.com/x*"]) "http://a.com/x1" =
        Except.ok (UrlFate.removed "a.com" "exact URL match" p) ∨
      urlFate (classify ["a.com", "http://a.com/x*"]) "http://a.com/x1" =
        Except.ok (UrlFate.removed "a.com" "wildcard URL match" p)) :=
  C3_url_precedence (classify ["a.com", "http://a.com/x*"]) "http://a.com/x1" "a.com"
    (by decide) (Or.inr (by decide)) (Or.inl (by decide))

/-- Claim C4: in URL mode the removal mapping stores, for each hostname, the
reason and pattern produced by the first removed URL under that hostname in
iteration order, and a count equal to the total number of removals under
that hostname: later removals only increment the count. -/
theorem C4_first_match_aggregation (urls O : List String) (ins : List String)
    (rem : List (String × Nat × String × String))
    (h : filter_urls urls O = Except.ok (ins, rem)) (d : String) :
    lookupRem d rem =
      match (eventsOf (classify O) urls).filter (fun e => decide (e.1 = d)) with
      | [] => none
      | (_, r, p) :: tail => some (tail.length + 1, r, p) := by
  obtain ⟨-, hrem⟩ := filter_urls_eq h
  subst hrem
  exact lookupRem_bumpFold_none d (eventsOf (classify O) urls) [] rfl

/-- Claim C4 witness at a concrete input: the first URL under `a.com` was
removed by the exact-domain rule, the second by the wildcard-URL rule; the
stored record keeps the first reason with count 2. -/
theorem C4_witness :
    lookupRem "a.com" [("a.com", 2, "exact domain match", "a.com")] =
      some (2, "exact domain match", "a.com") := by
  have h := C4_first_match_aggregation ["https://a.com/1", "http://a.com/x1"]
    ["a.com", "http://a.com/x*"] [] [("a.com", 2, "exact domain match", "a.com")] rfl "a.com"
  rw [h]
  decide

/-- Claim C5 counterexample: the classifier stores the entry
`http://Example.com/A` in the url-exact bucket exactly as written (not
lower-cased), and the input URL `http://Example.com/A` — whose lower-casing
equals the entry's lower-casing — is kept, not removed. -/
theorem C5_counterexample :
    (classify ["http://Example.com/A"]).url_exact = ["http://Example.com/A"] ∧
    filter_urls ["http://Example.com/A"] ["http://Example.com/A"] =
      Except.ok (["http://Example.com/A"], []) := by
  refine ⟨by decide, by decide⟩

/-- Claim C5 (amended): the classifier places `http(s)`-prefixed `*`-free
entries into the url-exact bucket exactly as written (no lower-casing), and
an input URL is removed with reason `exact URL match` precisely when its
lower-casing equals such an entry verbatim: the matching is case-insensitive
on the input side only. -/
theorem C5_url_exact_matching (out_of_scope : List String) (url domain : String)
    (hd : pyHostname url = Except.ok (some domain)) :
    (∀ e ∈ (classify out_of_scope).url_exact,
      e ∈ out_of_scope ∧ urlScheme e = true ∧ hasStar e = false) ∧
    (pyLower url ∈ (classify out_of_scope).url_exact ↔
      urlFate (classify out_of_scope) url =
        Except.ok (UrlFate.removed domain "exact URL match" (pyLower url))) := by
  constructor
  · intro e he
    unfold classify at he
    simp only [List.mem_filter] at he
    have h2 : urlScheme e = true ∧ hasStar e = false := by simpa using he.2
    exact ⟨he.1, h2.1, h2.2⟩
  · constructor
    · intro hc
      unfold urlFate
      rw [hd]
      simp [hc]
    · intro hf
      by_cases hc : pyLower url ∈ (classify out_of_scope).url_exact
      · exact hc
      · exfalso
        rw [urlFate_some hd, if_neg hc] at hf
        cases hw : matches_wildcard (pyLower url) (classify out_of_scope).url_wildcards with
        | some q => rw [hw] at hf; simp at hf
        | none =>
          rw [hw] at hf
          by_cases hdc : domain ∈ (classify out_of_scope).domain_exact
          · rw [if_pos hdc] at hf; simp at hf
          · rw [if_neg hdc] at hf
            cases hdw : matches_wildcard domain (classify out_of_scope).domain_wildcards with
            | some q => rw [hdw] at hf; simp at hf
            | none => rw [hdw] at hf; simp at hf

/-- Claim C5 witness at a concrete input. -/
theorem C5_witness :
    urlFate (classify ["http://a.com/x"]) "http://a.com/x" =
      Except.ok (UrlFate.removed "a.com" "exact URL match" (pyLower "http://a.com/x")) :=
  (C5_url_exact_matching ["http://a.com/x"] "http://a.com/x" "a.com" (by decide)).2.mp
    (by decide)

/-- Claim C7: re-running either filter on its own in-scope output with the
same out-of-scope set returns that set unchanged with no removals. -/
theorem C7_idempotence (S O : List String) :
    (∀ K R, filter_subdomains S O = (K, R) → filter_subdomains K O = (K, [])) ∧
    (∀ K R, filter_urls S O = Except.ok (K, R) → filter_urls K O = Except.ok (K, [])) := by
  constructor
  · intro K R h
    rw [filter_subdomains_eq] at h
    injection h with hK hR
    rw [filter_subdomains_eq]
    have hall : ∀ s ∈ K,
        (subFate (O.filter (fun d => !(hasStar d))) (O.filter (fun d => hasStar d)) s).isNone =
          true := by
      intro s hs
      rw [← hK] at hs
      exact (List.mem_filter.mp hs).2
    rw [List.filter_eq_self.mpr hall]
    rw [List.filterMap_eq_nil_iff.mpr (fun s hs => Option.isNone_iff_eq_none.mp (hall s hs))]
  · intro K R h
    obtain ⟨hK, -⟩ := filter_urls_eq h
    unfold filter_urls
    have hkept : ∀ u ∈ K, urlFate (classify O) u = Except.ok UrlFate.kept := by
      intro u hu
      rw [hK] at hu
      exact of_decide_eq_true (List.mem_filter.mp hu).2
    have hfates : ∀ u ∈ K, ∃ f, urlFate (classify O) u = Except.ok f :=
      fun u hu => ⟨UrlFate.kept, hkept u hu⟩
    rw [urlsGo_eq K hfates ([], [])]
    have h1 : keptOf (classify O) K = K :=
      List.filter_eq_self.mpr (fun u hu => decide_eq_true (hkept u hu))
    have h2 : eventsOf (classify O) K = [] := by
      refine List.filterMap_eq_nil_iff.mpr (fun u hu => ?_)
      rw [hkept u hu]
    rw [keptOf] at h1
    rw [eventsOf] at h2
    simp only [keptOf, eventsOf] at h1 h2 ⊢
    rw [h1, h2]
    rfl

/-- Claim C7 witness at a concrete input, both modes. -/
theorem C7_witness :
    filter_subdomains ["evil.com"] ["*.example.com"] = (["evil.com"], []) ∧
    filter_urls ["https://good.com/y"] ["http://a.example.com/*"] =
      Except.ok (["https://good.com/y"], []) := by
  constructor
  · exact (C7_idempotence ["api.example.com", "evil.com"] ["*.example.com"]).1
      ["evil.com"] [("api.example.com", "wildcard match", "*.example.com")] (by decide)
  · exact (C7_idempotence ["http://a.example.com/x", "https://good.com/y"]
      ["http://a.example.com/*"]).2 ["https://good.com/y"]
      [("a.example.com", 1, "wildcard URL match", "http://a.example.com/*")] (by decide)

/-- Claim C8 counterexample: `urlparse` raises
`ValueError("Invalid IPv6 URL")` on `http://[`, so the whole run aborts
instead of silently dropping the unparseable URL — and the well-formed URL
`https://good.com/y` in the same input then appears in neither the in-scope
set nor the removal mapping. -/
theorem C8_counterexample :
    filter_urls ["http://[", "https://good.com/y"] [] = Except.error "Invalid IPv6 URL" := by
  decide

/-- Claim C8 (amended): when no URL of the run makes `urlparse` raise, every
URL without an extractable hostname is silently dropped (kept nowhere and
contributing no removal event), every URL with a hostname is either kept in
scope or counted under its hostname in the removal mapping — never both —
and the total removed count is exactly the number of removal events. -/
theorem C8_silent_drop (urls O : List String) (ins : List String)
    (rem : List (String × Nat × String × String))
    (h : filter_urls urls O = Except.ok (ins, rem)) :
    (∀ url ∈ urls,
      (urlFate (classify O) url = Except.ok UrlFate.dropped → url ∉ ins) ∧
      (urlFate (classify O) url = Except.ok UrlFate.kept → url ∈ ins) ∧
      (∀ d r p, urlFate (classify O) url = Except.ok (UrlFate.removed d r p) →
        url ∉ ins ∧ lookupRem d rem ≠ none)) ∧
    (∀ url ∈ ins, url ∈ urls ∧ urlFate (classify O) url = Except.ok UrlFate.kept) ∧
    remTotal rem = (eventsOf (classify O) urls).length := by
  obtain ⟨hins, hrem⟩ := filter_urls_eq h
  subst hins
  subst hrem
  refine ⟨fun url hu => ⟨?_, ?_, ?_⟩, fun url hu => ?_, ?_⟩
  · intro hfate hmem
    have := of_decide_eq_true (List.mem_filter.mp hmem).2
    rw [hfate] at this
    cases this
  · intro hfate
    exact List.mem_filter.mpr ⟨hu, decide_eq_true hfate⟩
  · intro d r p hfate
    constructor
    · intro hmem
      have := of_decide_eq_true (List.mem_filter.mp hmem).2
      rw [hfate] at this
      cases this
    · have hev : (d, r, p) ∈ eventsOf (classify O) urls := by
        refine List.mem_filterMap.mpr ⟨url, hu, ?_⟩
        rw [hfate]
      have hmemf : (d, r, p) ∈
          (eventsOf (classify O) urls).filter (fun e => decide (e.1 = d)) :=
        List.mem_filter.mpr ⟨hev, by simp⟩
      rw [lookupRem_bumpFold_none d (eventsOf (classify O) urls) [] rfl]
      cases hflt : (eventsOf (classify O) urls).filter (fun e => decide (e.1 = d)) with
      | nil => rw [hflt] at hmemf; cases hmemf
      | cons e0 tail => simp
  · have hm := List.mem_filter.mp hu
    exact ⟨hm.1, of_decide_eq_true hm.2⟩
  · rw [remTotal_bumpFold]
    simp [remTotal]

/-- Claim C8 witness at a concrete input: the scheme-less line `nohost` has
no extractable hostname and lands in neither output. -/
theorem C8_witness :
    ("nohost" : String) ∉
      (["https://good.com/y"] : List String) ∧
    remTotal [("gone.com", 1, "exact domain match", "gone.com")] =
      (eventsOf (classify ["gone.com"]) ["nohost", "https://good.com/y", "http://gone.com/a"]).length := by
  have h := C8_silent_drop ["nohost", "https://good.com/y", "http://gone.com/a"] ["gone.com"]
    ["https://good.com/y"] [("gone.com", 1, "exact domain match", "gone.com")] rfl
  exact ⟨(h.1 "nohost" (by decide)).1 (by decide), h.2.2⟩

/-- Claim C10 counterexample: the input `http://Example.com/A` exactly
matches the out-of-scope entry `http://example.com/a`; the stored pattern
`http://example.com/a` is the lower-cased input URL, and it is identical to
the entry exactly as written in the out-of-scope file — the two do not
differ. -/
theorem C10_counterexample :
    filter_urls ["http://Example.com/A"] ["http://example.com/a"] =
      Except.ok ([], [("example.com", 1, "exact URL match", "http://example.com/a")]) ∧
    "http://example.com/a" ∈ (classify ["http://example.com/a"]).url_exact := by
  refine ⟨by decide, by decide⟩

/-- Claim C10 (amended): every removal with reason `exact URL match` stores
as its pattern the lower-cased input URL, and that string is itself one of
the url-exact out-of-scope entries exactly as written — an entry that is not
already lower-case can never produce an exact URL match, so the stored
pattern never differs from the entry. -/
theorem C10_exact_pattern_stored (B : Buckets) (url d p : String)
    (h : urlFate B url = Except.ok (UrlFate.removed d "exact URL match" p)) :
    p = pyLower url ∧ p ∈ B.url_exact := by
  cases hh : pyHostname url with
  | error e => unfold urlFate at h; rw [hh] at h; cases h
  | ok o =>
    cases o with
    | none => unfold urlFate at h; rw [hh] at h; simp at h
    | some domain =>
      rw [urlFate_some hh] at h
      by_cases hc : pyLower url ∈ B.url_exact
      · rw [if_pos hc] at h
        have h' := h
        simp only [Except.ok.injEq, UrlFate.removed.injEq] at h'
        refine ⟨h'.2.2.symm, ?_⟩
        rw [h'.2.2.symm]
        exact hc
      · exfalso
        rw [if_neg hc] at h
        cases hw : matches_wildcard (pyLower url) B.url_wildcards with
        | some q => rw [hw] at h; simp at h
        | none =>
          rw [hw] at h
          by_cases hdc : domain ∈ B.domain_exact
          · rw [if_pos hdc] at h; simp at h
          · rw [if_neg hdc] at h
            cases hdw : matches_wildcard domain B.domain_wildcards with
            | some q => rw [hdw] at h; simp at h
            | none => rw [hdw] at h; simp at h

/-- Claim C10 witness at a concrete input. -/
theorem C10_witness :
    ("http://b.com/q" : String) = pyLower "http://b.com/q" ∧
    "http://b.com/q" ∈ (classify ["http://b.com/q"]).url_exact :=
  C10_exact_pattern_stored (classify ["http://b.com/q"]) "http://b.com/q" "b.com"
    "http://b.com/q" (by decide)

/-! ### Helper lemmas: string order, sorting, loading -/

theorem charListLe_total : ∀ (a b : List Char), charListLe a b = true ∨ charListLe b a = true := by
  intro a
  induction a with
  | nil => intro b; left; rfl
  | cons x xs ih =>
    intro b
    cases b with
    | nil => right; rfl
    | cons y ys =>
      by_cases hxy : x.toNat < y.toNat
      · left; simp [charListLe, hxy]
      · by_cases hyx : y.toNat < x.toNat
        · right; simp [charListLe, hyx]
        · rcases ih ys with h | h
          · left; simp [charListLe, hxy, hyx, h]
          · right; simp [charListLe, hxy, hyx, h]

theorem charListLe_antisymm : ∀ {a b : List Char},
    charListLe a b = true → charListLe b a = true → a = b := by
  intro a
  induction a with
  | nil =>
    intro b h1 h2
    cases b with
    | nil => rfl
    | cons y ys => simp [charListLe] at h2
  | cons x xs ih =>
    intro b h1 h2
    cases b with
    | nil => simp [charListLe] at h1
    | cons y ys =>
      by_cases hxy : x.toNat < y.toNat
      · simp [charListLe, hxy, show ¬(y.toNat < x.toNat) by omega] at h2
      · by_cases hyx : y.toNat < x.toNat
        · simp [charListLe, hxy, hyx] at h1
        · have hn : x.toNat = y.toNat := by omega
          have hx : x = y := Char.ext (UInt32.toNat.inj hn)
          subst hx
          have h1' : charListLe xs ys = true := by simpa [charListLe, hxy, hyx] using h1
          have h2' : charListLe ys xs = true := by simpa [charListLe, hxy, hyx] using h2
          rw [ih h1' h2']

theorem charListLe_trans : ∀ {a b c : List Char},
    charListLe a b = true → charListLe b c = true → charListLe a c = true := by
  intro a
  induction a with
  | nil => intro b c h1 h2; rfl
  | cons x xs ih =>
    intro b c h1 h2
    cases b with
    | nil => simp [charListLe] at h1
    | cons y ys =>
      cases c with
      | nil => simp [charListLe] at h2
      | cons z zs =>
        by_cases hxy : x.toNat < y.toNat
        · by_cases hyz : y.toNat < z.toNat
          · simp [charListLe, show x.toNat < z.toNat by omega]
          · by_cases hzy : z.toNat < y.toNat
            · simp [charListLe, hyz, hzy] at h2
            · simp [charListLe, show x.toNat < z.toNat by omega]
        · by_cases hyx : y.toNat < x.toNat
          · simp [charListLe, hxy, hyx] at h1
          · by_cases hyz : y.toNat < z.toNat
            · simp [charListLe, show x.toNat < z.toNat by omega]
            · by_cases hzy : z.toNat < y.toNat
              · simp [charListLe, hyz, hzy] at h2
              · have h1' : charListLe xs ys = true := by simpa [charListLe, hxy, hyx] using h1
                have h2' : charListLe ys zs = true := by simpa [charListLe, hyz, hzy] using h2
                simp [charListLe, show ¬(x.toNat < z.toNat) by omega,
                  show ¬(z.toNat < x.toNat) by omega, ih h1' h2']

theorem strLe_total (a b : String) : strLe a b = true ∨ strLe b a = true :=
  charListLe_total a.data b.data

theorem strLe_trans {a b c : String} (h1 : strLe a b = true) (h2 : strLe b c = true) :
    strLe a c = true :=
  charListLe_trans h1 h2

theorem strLe_antisymm {a b : String} (h1 : strLe a b = true) (h2 : strLe b a = true) :
    a = b :=
  String.ext (charListLe_antisymm h1 h2)

theorem insertStr_perm (s : String) (l : List String) : (insertStr s l).Perm (s :: l) := by
  induction l with
  | nil => exact List.Perm.refl _
  | cons t rest ih =>
    unfold insertStr
    by_cases h : strLe s t = true
    · rw [if_pos h]
    · rw [if_neg h]
      exact List.Perm.trans (List.Perm.cons t ih) (List.Perm.swap s t rest)

theorem sortStrings_perm (l : List String) : (sortStrings l).Perm l := by
  induction l with
  | nil => exact List.Perm.refl _
  | cons s rest ih =>
    exact List.Perm.trans (insertStr_perm s (sortStrings rest)) (List.Perm.cons s ih)

theorem insertStr_sorted (s : String) (l : List String)
    (h : l.Pairwise (fun a b => strLe a b = true)) :
    (insertStr s l).Pairwise (fun a b => strLe a b = true) := by
  induction l with
  | nil => simp [insertStr]
  | cons t rest ih =>
    rcases List.pairwise_cons.mp h with ⟨ht, hrest⟩
    unfold insertStr
    by_cases hst : strLe s t = true
    · rw [if_pos hst]
      refine List.pairwise_cons.mpr ⟨?_, h⟩
      intro b hb
      rcases List.mem_cons.mp hb with rfl | hb'
      · exact hst
      · exact strLe_trans hst (ht b hb')
    · rw [if_neg hst]
      refine List.pairwise_cons.mpr ⟨?_, ih hrest⟩
      intro b hb
      rcases List.mem_cons.mp ((insertStr_perm s rest).mem_iff.mp hb) with heq | hb'
      · subst heq
        rcases strLe_total b t with h' | h'
        · exact absurd h' hst
        · exact h'
      · exact ht b hb'

theorem sortStrings_sorted (l : List String) :
    (sortStrings l).Pairwise (fun a b => strLe a b = true) := by
  induction l with
  | nil => simp [sortStrings]
  | cons s rest ih => exact insertStr_sorted s (sortStrings rest) ih

theorem sortStrings_eq_of_perm {l1 l2 : List String} (h : l1.Perm l2) :
    sortStrings l1 = sortStrings l2 :=
  @List.eq_of_perm_of_sorted String (fun a b => strLe a b = true)
    ⟨fun _ _ h1 h2 => strLe_antisymm h1 h2⟩ _ _
    ((sortStrings_perm l1).trans (h.trans (sortStrings_perm l2).symm))
    (sortStrings_sorted l1) (sortStrings_sorted l2)

theorem mem_load_file {lines : List String} {s : String} :
    s ∈ load_file lines ↔ (s ≠ "" ∧ ∃ l ∈ lines, pyStrip l = s) := by
  unfold load_file
  rw [List.mem_dedup, List.mem_filter]
  simp only [List.mem_map, decide_eq_true_eq]
  tauto

theorem load_file_nodup (lines : List String) : (load_file lines).Nodup :=
  List.nodup_dedup _

/-! ### Claim C9 -/

/-- Claim C9: the saved output lists each surviving item exactly once, one
line with a trailing newline per item, in ascending code-point order, and it
is the same whatever the ordering or duplication of the original input lines
(duplicates collapse at load time). -/
theorem C9_sorted_dedup_output (L1 L2 : List String) (h : ∀ s, s ∈ L1 ↔ s ∈ L2) :
    save_to_file (load_file L1) = save_to_file (load_file L2) ∧
    (sortStrings (load_file L1)).Pairwise (fun a b => strLe a b = true ∧ a ≠ b) ∧
    (∀ s, s ∈ sortStrings (load_file L1) ↔ s ∈ load_file L1) ∧
    (∀ s ∈ load_file L1, (sortStrings (load_file L1)).count s = 1) := by
  have hperm : (load_file L1).Perm (load_file L2) := by
    refine (List.perm_ext_iff_of_nodup (load_file_nodup L1) (load_file_nodup L2)).mpr ?_
    intro s
    rw [mem_load_file, mem_load_file]
    constructor
    · rintro ⟨hne, l, hl, he⟩
      exact ⟨hne, l, (h l).mp hl, he⟩
    · rintro ⟨hne, l, hl, he⟩
      exact ⟨hne, l, (h l).mpr hl, he⟩
  have hnds : (sortStrings (load_file L1)).Nodup :=
    (sortStrings_perm (load_file L1)).symm.nodup (load_file_nodup L1)
  refine ⟨?_, ?_, ?_, ?_⟩
  · unfold save_to_file
    rw [sortStrings_eq_of_perm hperm]
  · exact List.Pairwise.and (sortStrings_sorted (load_file L1)) hnds
  · intro s
    exact (sortStrings_perm (load_file L1)).mem_iff
  · intro s hs
    exact List.count_eq_one_of_mem hnds
      ((sortStrings_perm (load_file L1)).mem_iff.mpr hs)

/-- Claim C9 witness at a concrete input: two files with the same lines in
different order and multiplicity produce identical output text. -/
theorem C9_witness :
    save_to_file (load_file ["b", "a", " a ", "b"]) =
      save_to_file (load_file [" a ", "b", "a"]) :=
  (C9_sorted_dedup_output ["b", "a", " a ", "b"] [" a ", "b", "a"]
    (by intro s; simp only [List.mem_cons, List.not_mem_nil, or_false]; tauto)).1

end SayMyScope
